import Mathlib

/-!
Shallow embedding of `retro_radio.py`: a rotary-encoder radio that maps
encoder positions to stations, validated from a CSV table, with a dense
position-to-station lookup, an encoder-step callback driving playback,
and persistence of the current position.
-/

namespace RetroRadio

/-- `MIN_POS = 0`, minimum value of the rotary encoder. -/
def MIN_POS : Int := 0

/-- `MAX_POS = 1020`, maximum value of the rotary encoder. -/
def MAX_POS : Int := 1020

/-- Path of the local noise file, appended as the fallback station. -/
def NOISE_FILE : String := "/home/pi/rustafari_radio_noserver/rauschen.mp3"

/-- One parsed CSV row: integer lower and upper boundary and the stream url
(cols 0, 1, 2 of the playlist; optional columns do not matter here). -/
structure StationRow where
  low : Int
  upp : Int
  url : String
deriving DecidableEq

/-- The two fatal errors `csv_sanity_check` can print before `exit()`:
an inverted boundary on row `i`, or overlapping rows `i` and `j`. -/
inductive CsvError where
  | inverted (i : Nat)
  | overlap (i j : Nat)
deriving DecidableEq

/-- The loop body of `csv_sanity_check`: for each index `i` in
`range(0, len(stations) - 1)` it first checks `stations[i][0] > stations[i][1]`
(inverted boundary) and then `stations[i][1] >= stations[i+1][0]` (overlap).
`i` carries the current row index for the error message. -/
def sanityFrom : Nat → List StationRow → Option CsvError
  | _, [] => none
  | _, [_] => none
  | i, a :: b :: rest =>
    if a.upp < a.low then some (CsvError.inverted i)
    else if b.low ≤ a.upp then some (CsvError.overlap i (i + 1))
    else sanityFrom (i + 1) (b :: rest)

/-- `csv_sanity_check(stations)`: `none` when the check passes, otherwise
the error it exits with. -/
def csv_sanity_check (stations : List StationRow) : Option CsvError :=
  sanityFrom 0 stations

/-- The noise entry `[-1, -1, NOISE_FILE]` appended by `read_csv`. -/
def fallbackRow : StationRow := ⟨-1, -1, NOISE_FILE⟩

/-- `read_csv` after integer parsing: run `csv_sanity_check` on the parsed
rows, then append the noise entry as the last row. An error aborts the
whole load. -/
def read_csv (rows : List StationRow) : Except CsvError (List StationRow) :=
  match csv_sanity_check rows with
  | some e => Except.error e
  | none => Except.ok (rows ++ [fallbackRow])

/-- Python list read `l[i]`: a negative index `i` with `-len l ≤ i` reads
cell `len l + i`; out of range raises `IndexError` (here `none`). -/
def pyGet {α : Type} (l : List α) (i : Int) : Option α :=
  if 0 ≤ i then l[i.toNat]?
  else if 0 ≤ i + l.length then l[(i + l.length).toNat]?
  else none

/-- Python list write `l[i] = a`: same index rule as `pyGet`; `none` models
the `IndexError`. -/
def pySet {α : Type} (l : List α) (i : Int) (a : α) : Option (List α) :=
  if 0 ≤ i then
    if i < l.length then some (l.set i.toNat a) else none
  else if 0 ≤ i + l.length then some (l.set (i + l.length).toNat a)
  else none

/-- Number of cells of `pos2station`: one per position in
`range(MIN_POS, MAX_POS + 1)`. -/
def posCount : Nat := (MAX_POS + 1 - MIN_POS).toNat

/-- The inner loop of `populate_postostation`:
`for p in range(low, upp + 1): pos2station[p] = line_nr`, with `fuel`
iterations left and `p` the next position. -/
def assignRangeAux (line_nr : Nat) : Nat → Int → List Int → Option (List Int)
  | 0, _, arr => some arr
  | fuel + 1, p, arr =>
    match pySet arr p (line_nr : Int) with
    | none => none
    | some arr' => assignRangeAux line_nr fuel (p + 1) arr'

/-- One station of the outer loop: assign `line_nr` to every cell whose
position lies in `range(low, upp + 1)`. -/
def assignRange (arr : List Int) (low upp : Int) (line_nr : Nat) :
    Option (List Int) :=
  assignRangeAux line_nr (upp + 1 - low).toNat low arr

/-- The outer loop of `populate_postostation` over
`range(len(sl) - 1)`, threading the array. -/
def populateAux : Nat → List StationRow → List Int → Option (List Int)
  | _, [], arr => some arr
  | line_nr, r :: rest, arr =>
    match assignRange arr r.low r.upp line_nr with
    | none => none
    | some arr' => populateAux (line_nr + 1) rest arr'

/-- `populate_postostation(sl)`: start from `[-1] * (MAX_POS + 1 - MIN_POS)`
and, for each station line except the last (the noise file), assign its
line number to every cell in its boundary range. -/
def populate_postostation (sl : List StationRow) : Option (List Int) :=
  populateAux 0 sl.dropLast (List.replicate posCount (-1))

/-- Observable commands sent to the playback sink and the position store. -/
inductive Event where
  | stop
  | start (url : String)
  | persist (pos : Int)
deriving DecidableEq

/-- `play(url)`: `player.stop()` then load the media and `player.play()` —
as a trace, a stop followed by a start of `url`. -/
def play (url : String) : List Event :=
  [Event.stop, Event.start url]

/-- The clamp of `callback_rotary_encoder`: `way` becomes `0` when the move
would leave `[MIN_POS, MAX_POS]`. -/
def effectiveWay (pos way : Int) : Int :=
  if (MAX_POS ≤ pos ∧ way = 1) ∨ (pos ≤ MIN_POS ∧ way = -1) then 0 else way

/-- `callback_rotary_encoder(way)` on state `pos`: clamp `way`, compare
`posToStation[pos]` with `posToStation[pos + way]`; when they differ, commit
the move and `play` the stream url of `station_list[posToStation[pos]]` at
the new `pos`, else commit silently; finally `write_position_files()`.
Returns the committed position and the emitted event trace; `none` models
an uncaught `IndexError`. -/
def callback_rotary_encoder (sl : List StationRow) (posToStation : List Int)
    (pos way : Int) : Option (Int × List Event) :=
  let way' := effectiveWay pos way
  (pyGet posToStation pos).bind fun c1 =>
    (pyGet posToStation (pos + way')).bind fun c2 =>
      if c1 ≠ c2 then
        (pyGet sl c2).map fun st =>
          (pos + way', play st.url ++ [Event.persist (pos + way')])
      else some (pos + way', [Event.persist (pos + way')])

/-- A run of consecutive encoder callbacks, concatenating their traces. -/
def runSteps (sl : List StationRow) (posToStation : List Int) :
    Int → List Int → Option (Int × List Event)
  | pos, [] => some (pos, [])
  | pos, w :: ws =>
    (callback_rotary_encoder sl posToStation pos w).bind fun pt =>
      (runSteps sl posToStation pt.1 ws).map fun pt' => (pt'.1, pt.2 ++ pt'.2)

/-- The station selected at position `p`:
`station_list[posToStation[p]]` with Python index semantics. -/
def resolve (sl : List StationRow) (posToStation : List Int) (p : Int) :
    Option StationRow :=
  (pyGet posToStation p).bind (pyGet sl)

/-- The normalized Python index a (possibly negative) index denotes into a
list of length `len`. -/
def pyIndex (len : Nat) (i : Int) : Int :=
  if i < 0 then i + len else i

/-- The station-list index selected at position `p`: the cell of
`posToStation`, normalized the way Python indexes `station_list` (the
sentinel `-1` denotes the last entry, the fallback). -/
def resolveIdx (sl : List StationRow) (posToStation : List Int) (p : Int) :
    Option Int :=
  (pyGet posToStation p).map (pyIndex sl.length)

/-! ### Persistence of the position (`write_position_files` / `position.py`) -/

/-- The fixed text `write_position_files` writes before the position value:
a shebang line, a blank line and the assignment target. -/
def position_header : List Char :=
  "#!/usr/bin/env python\n\nstart_position = ".data

/-- Model of the decimal digit characters of `n`, most significant first,
as Python `str` prints a nonnegative integer. -/
def decimalChars (n : Nat) : List Char :=
  if n = 0 then ['0']
  else ((Nat.digits 10 n).reverse).map (fun d => Char.ofNat (48 + d))

/-- Model of Python `str(pos)` for an integer `pos`. -/
def str_of_int (x : Int) : List Char :=
  if x < 0 then '-' :: decimalChars x.natAbs else decimalChars x.toNat

/-- `write_position_files()`: the file content written to `position.py`,
`"#!/usr/bin/env python\n\n" + "start_position = " + str(pos)`. -/
def write_position_files (pos : Int) : List Char :=
  position_header ++ str_of_int pos

/-- Decimal digit test on a character, `48 ≤ code ≤ 57`. -/
def isDecimalDigit (c : Char) : Bool :=
  48 ≤ c.toNat && c.toNat ≤ 57

/-- Model of Python parsing a decimal integer literal: at least one digit,
folded most-significant-first. -/
def parseDigits (s : List Char) : Option Nat :=
  if s.isEmpty then none
  else if s.all isDecimalDigit then
    some (s.foldl (fun n c => n * 10 + (c.toNat - 48)) 0)
  else none

/-- Model of Python parsing a signed integer literal. -/
def parseIntLit (s : List Char) : Option Int :=
  match s with
  | [] => none
  | c :: rest =>
    if c = '-' then (parseDigits rest).map (fun n : Nat => -(n : Int))
    else (parseDigits s).map (fun n : Nat => (n : Int))

/-- Modelled from the spec: the loader of the persisted position
(`from position import start_position`, reading the generated `position.py`,
which is not a source file under src/) "returns the previously saved
integer": the interpreter reads the file written by `write_position_files`
and binds `start_position` to the integer literal after the fixed header. -/
def load_start_position (file : List Char) : Option Int :=
  if file.take position_header.length = position_header then
    parseIntLit (file.drop position_header.length)
  else none

/-! ### Concrete tables used as witnesses -/

/-- Witness playlist rows: station A owns position 0, station B positions
2 and 3. -/
def rowsW : List StationRow := [⟨0, 0, "A"⟩, ⟨2, 3, "B"⟩]

/-- The loaded witness table with the appended noise entry. -/
def tableW : List StationRow := rowsW ++ [fallbackRow]

/-- The lookup table built from the witness table. -/
def p2sW : List Int := (populate_postostation tableW).getD []

/-- A single accepted row whose bounds are negative: `populate_postostation`
writes its cells through Python negative indexing. -/
def rowsNeg : List StationRow := [⟨-5, -1, "A"⟩]

/-- The loaded table of `rowsNeg`. -/
def tableNeg : List StationRow := rowsNeg ++ [fallbackRow]

/-- The lookup table built from `tableNeg`. -/
def p2sNeg : List Int := (populate_postostation tableNeg).getD []

/-- A single accepted row reaching one past `MAX_POS`. -/
def rowsOver : List StationRow := [⟨1020, 1021, "A"⟩]

/-! ### Basic facts about the Python list model -/

theorem pyGet_nonneg {α : Type} (l : List α) (i : Int) (h : 0 ≤ i) :
    pyGet l i = l[i.toNat]? := by
  simp [pyGet, h]

theorem pySet_nonneg {α : Type} (l : List α) (i : Int) (a : α)
    (h0 : 0 ≤ i) (hlt : i < l.length) :
    pySet l i a = some (l.set i.toNat a) := by
  simp [pySet, h0, hlt]

theorem pySet_length {α : Type} {l l' : List α} {i : Int} {a : α}
    (h : pySet l i a = some l') : l'.length = l.length := by
  unfold pySet at h
  split at h
  · split at h
    · cases h; simp
    · cases h
  · split at h
    · cases h; simp
    · cases h

theorem mem_of_pySet {α : Type} {l l' : List α} {i : Int} {a b : α}
    (h : pySet l i a = some l') (hb : b ∈ l') : b ∈ l ∨ b = a := by
  unfold pySet at h
  split at h
  · split at h
    · cases h; exact List.mem_or_eq_of_mem_set hb
    · cases h
  · split at h
    · cases h; exact List.mem_or_eq_of_mem_set hb
    · cases h

/-! ### The inner assignment loop -/

theorem assignRangeAux_length {line_nr : Nat} :
    ∀ (fuel : Nat) (p : Int) (arr arr' : List Int),
      assignRangeAux line_nr fuel p arr = some arr' → arr'.length = arr.length
  | 0, p, arr, arr', h => by cases h; rfl
  | fuel + 1, p, arr, arr', h => by
    unfold assignRangeAux at h
    cases hset : pySet arr p (line_nr : Int) with
    | none => rw [hset] at h; cases h
    | some arr1 =>
      rw [hset] at h
      have := assignRangeAux_length fuel (p + 1) arr1 arr' h
      rw [this, pySet_length hset]

theorem assignRangeAux_mem {line_nr : Nat} :
    ∀ (fuel : Nat) (p : Int) (arr arr' : List Int),
      assignRangeAux line_nr fuel p arr = some arr' →
      ∀ c ∈ arr', c ∈ arr ∨ c = (line_nr : Int)
  | 0, p, arr, arr', h => by cases h; exact fun c hc => Or.inl hc
  | fuel + 1, p, arr, arr', h => by
    unfold assignRangeAux at h
    cases hset : pySet arr p (line_nr : Int) with
    | none => rw [hset] at h; cases h
    | some arr1 =>
      rw [hset] at h
      intro c hc
      rcases assignRangeAux_mem fuel (p + 1) arr1 arr' h c hc with h1 | h1
      · exact mem_of_pySet hset h1
      · exact Or.inr h1

theorem assignRangeAux_spec {line_nr : Nat} :
    ∀ (fuel : Nat) (p : Int) (arr : List Int),
      0 ≤ p → p + fuel ≤ arr.length →
      ∃ arr', assignRangeAux line_nr fuel p arr = some arr' ∧
        arr'.length = arr.length ∧
        ∀ q : Nat, arr'[q]? =
          if p ≤ (q : Int) ∧ (q : Int) < p + fuel then some (line_nr : Int)
          else arr[q]?
  | 0, p, arr, hp, hle => by
    refine ⟨arr, rfl, rfl, fun q => ?_⟩
    rw [if_neg]
    push_cast
    omega
  | fuel + 1, p, arr, hp, hle => by
    have hplt : p < arr.length := by push_cast at hle ⊢; omega
    have hset : pySet arr p (line_nr : Int) = some (arr.set p.toNat line_nr) :=
      pySet_nonneg arr p _ hp hplt
    have hlen1 : (arr.set p.toNat (line_nr : Int)).length = arr.length := by simp
    obtain ⟨arr', harr', hlen, hchar⟩ :=
      assignRangeAux_spec fuel (p + 1) (arr.set p.toNat (line_nr : Int))
        (by omega) (by push_cast [hlen1] at hle ⊢; omega)
    refine ⟨arr', ?_, by rw [hlen, hlen1], fun q => ?_⟩
    · unfold assignRangeAux
      rw [hset]
      exact harr'
    · rw [hchar q, List.getElem?_set]
      split
      next hin =>
        rw [if_pos (by push_cast at hin ⊢; omega)]
      next hnin =>
        split
        next hq =>
          rw [if_pos (by omega : p.toNat < arr.length),
            if_pos (by push_cast at hnin ⊢; omega)]
        next hq =>
          rw [if_neg (by push_cast at hnin ⊢; omega)]

theorem assignRange_spec (arr : List Int) (low upp : Int) (line_nr : Nat)
    (hok : upp < low ∨ (0 ≤ low ∧ upp < arr.length)) :
    ∃ arr', assignRange arr low upp line_nr = some arr' ∧
      arr'.length = arr.length ∧
      ∀ q : Nat, arr'[q]? =
        if low ≤ (q : Int) ∧ (q : Int) ≤ upp then some (line_nr : Int)
        else arr[q]? := by
  by_cases hemp : upp < low
  · have hfuel : (upp + 1 - low).toNat = 0 := by omega
    refine ⟨arr, ?_, rfl, fun q => ?_⟩
    · unfold assignRange
      rw [hfuel]
      rfl
    · rw [if_neg (by omega)]
  · rcases hok with h | ⟨hlow, hupp⟩
    · exact absurd h hemp
    have hfuel : ((upp + 1 - low).toNat : Int) = upp + 1 - low := by omega
    obtain ⟨arr', harr', hlen, hchar⟩ :=
      @assignRangeAux_spec line_nr (upp + 1 - low).toNat low arr
        hlow (by push_cast [hfuel]; omega)
    refine ⟨arr', harr', hlen, fun q => ?_⟩
    rw [hchar q]
    by_cases hc : low ≤ (q : Int) ∧ (q : Int) ≤ upp
    · rw [if_pos (by rw [hfuel]; omega), if_pos hc]
    · rw [if_neg (by rw [hfuel]; omega), if_neg hc]

theorem assignRange_length {arr arr' : List Int} {low upp : Int} {line_nr : Nat}
    (h : assignRange arr low upp line_nr = some arr') :
    arr'.length = arr.length :=
  assignRangeAux_length _ _ _ _ h

theorem assignRange_mem {arr arr' : List Int} {low upp : Int} {line_nr : Nat}
    (h : assignRange arr low upp line_nr = some arr') :
    ∀ c ∈ arr', c ∈ arr ∨ c = (line_nr : Int) :=
  assignRangeAux_mem _ _ _ _ h

/-! ### The outer population loop -/

theorem populateAux_length :
    ∀ (rows : List StationRow) (line_nr : Nat) (arr arr' : List Int),
      populateAux line_nr rows arr = some arr' → arr'.length = arr.length
  | [], _, arr, arr', h => by cases h; rfl
  | r :: rest, line_nr, arr, arr', h => by
    unfold populateAux at h
    cases hra : assignRange arr r.low r.upp line_nr with
    | none => rw [hra] at h; cases h
    | some arr1 =>
      rw [hra] at h
      rw [populateAux_length rest (line_nr + 1) arr1 arr' h, assignRange_length hra]

theorem populateAux_mem :
    ∀ (rows : List StationRow) (line_nr : Nat) (arr arr' : List Int),
      populateAux line_nr rows arr = some arr' →
      ∀ c ∈ arr', c ∈ arr ∨ ∃ k, k < rows.length ∧ c = ((line_nr + k : Nat) : Int)
  | [], _, arr, arr', h => by cases h; exact fun c hc => Or.inl hc
  | r :: rest, line_nr, arr, arr', h => by
    unfold populateAux at h
    cases hra : assignRange arr r.low r.upp line_nr with
    | none => rw [hra] at h; cases h
    | some arr1 =>
      rw [hra] at h
      intro c hc
      rcases populateAux_mem rest (line_nr + 1) arr1 arr' h c hc with h1 | ⟨k, hk, hc'⟩
      · rcases assignRange_mem hra c h1 with h2 | h2
        · exact Or.inl h2
        · exact Or.inr ⟨0, by simp, by simpa using h2⟩
      · refine Or.inr ⟨k + 1, by simp; omega, by rw [hc']; congr 1; omega⟩

/-- Covering predicate: position `q` lies in the boundary range of row `r`. -/
def covers (r : StationRow) (q : Int) : Prop :=
  r.low ≤ q ∧ q ≤ r.upp

instance (r : StationRow) (q : Int) : Decidable (covers r q) := by
  unfold covers; infer_instance

theorem populateAux_spec :
    ∀ (rows : List StationRow) (line_nr : Nat) (arr : List Int),
      (∀ r ∈ rows, r.upp < r.low ∨ (0 ≤ r.low ∧ r.upp < (arr.length : Int))) →
      ∃ arr', populateAux line_nr rows arr = some arr' ∧
        arr'.length = arr.length ∧
        (∀ q : Nat, (∀ r ∈ rows, ¬ covers r (q : Int)) → arr'[q]? = arr[q]?) ∧
        (∀ q : Nat, ∀ k, ∀ a,
          rows[k]? = some a → covers a (q : Int) →
          (∀ j b, rows[j]? = some b → j ≠ k → ¬ covers b (q : Int)) →
          arr'[q]? = some ((line_nr + k : Nat) : Int))
  | [], line_nr, arr, hok => by
    refine ⟨arr, rfl, rfl, fun q _ => rfl, fun q k a hk => ?_⟩
    simp at hk
  | r :: rest, line_nr, arr, hok => by
    obtain ⟨arr1, harr1, hlen1, hchar1⟩ :=
      assignRange_spec arr r.low r.upp line_nr (hok r (by simp))
    obtain ⟨arr', harr', hlen, hunch, hcov⟩ :=
      populateAux_spec rest (line_nr + 1) arr1
        (fun s hs => by rw [hlen1]; exact hok s (by simp [hs]))
    refine ⟨arr', ?_, by rw [hlen, hlen1], fun q hq => ?_, fun q k a hk hcova huniq => ?_⟩
    · unfold populateAux
      rw [harr1]
      exact harr'
    · rw [hunch q (fun s hs => hq s (by simp [hs])), hchar1 q,
        if_neg (show ¬(r.low ≤ (q : Int) ∧ (q : Int) ≤ r.upp) from hq r (by simp))]
    · match k with
      | 0 =>
        have hra : r = a := by simpa using hk
        subst hra
        have hrest : ∀ s ∈ rest, ¬ covers s (q : Int) := by
          intro s hs
          obtain ⟨j, hj⟩ := List.mem_iff_getElem?.mp hs
          exact huniq (j + 1) s (by simpa using hj) (by omega)
        rw [hunch q hrest, hchar1 q,
          if_pos (show r.low ≤ (q : Int) ∧ (q : Int) ≤ r.upp from hcova)]
        norm_num
      | k + 1 =>
        have hk' : rest[k]? = some a := by simpa using hk
        have := hcov q k a hk' hcova (fun j b hj hjk =>
          huniq (j + 1) b (by simpa using hj) (by omega))
        rw [this]
        congr 2
        omega

/-! ### Facts about the sanity check -/

theorem sanityFrom_none_adjacent :
    ∀ (rows : List StationRow) (i0 : Nat), sanityFrom i0 rows = none →
      ∀ k a b, rows[k]? = some a → rows[k + 1]? = some b →
        a.low ≤ a.upp ∧ a.upp < b.low
  | [], _, h, k, a, b, ha, hb => by simp at hb
  | [_], _, h, k, a, b, ha, hb => by
    rcases k with _ | k <;> simp at hb
  | x :: y :: rest, i0, h, k, a, b, ha, hb => by
    unfold sanityFrom at h
    split at h
    · cases h
    split at h
    · cases h
    next h1 h2 =>
    match k with
    | 0 =>
      have hax : x = a := by simpa using ha
      have hby : y = b := by simpa using hb
      subst hax
      subst hby
      exact ⟨by omega, by omega⟩
    | k + 1 =>
      exact sanityFrom_none_adjacent (y :: rest) (i0 + 1) h k a b
        (by simpa using ha) (by simpa using hb)

theorem sanityFrom_overlap_eq :
    ∀ (rows : List StationRow) (i0 k : Nat) (a b : StationRow),
      rows[k]? = some a → rows[k + 1]? = some b →
      a.low ≤ a.upp → b.low ≤ a.upp →
      (∀ j c d, j < k → rows[j]? = some c → rows[j + 1]? = some d →
        c.low ≤ c.upp ∧ c.upp < d.low) →
      sanityFrom i0 rows = some (CsvError.overlap (i0 + k) (i0 + k + 1))
  | [], _, k, a, b, ha, hb, _, _, _ => by simp at hb
  | [_], _, k, a, b, ha, hb, _, _, _ => by
    rcases k with _ | k <;> simp at hb
  | x :: y :: rest, i0, k, a, b, ha, hb, hwf, hov, hpre => by
    match k with
    | 0 =>
      have hax : x = a := by simpa using ha
      have hby : y = b := by simpa using hb
      subst hax
      subst hby
      unfold sanityFrom
      rw [if_neg (by omega), if_pos (by omega)]
      norm_num
    | k + 1 =>
      have h0 := hpre 0 x y (by omega) (by simp) (by simp)
      have hrec := sanityFrom_overlap_eq (y :: rest) (i0 + 1) k a b
        (by simpa using ha) (by simpa using hb) hwf hov
        (fun j c d hj hc hd =>
          hpre (j + 1) c d (by omega) (by simpa using hc) (by simpa using hd))
      unfold sanityFrom
      rw [if_neg (by omega), if_neg (by omega)]
      rw [hrec]
      congr 2 <;> omega

theorem sanityFrom_inverted_eq :
    ∀ (rows : List StationRow) (i0 k : Nat) (a : StationRow),
      rows[k]? = some a → k + 1 < rows.length →
      a.upp < a.low →
      (∀ j c d, j < k → rows[j]? = some c → rows[j + 1]? = some d →
        c.low ≤ c.upp ∧ c.upp < d.low) →
      sanityFrom i0 rows = some (CsvError.inverted (i0 + k))
  | [], _, k, a, ha, hlt, _, _ => by simp at hlt
  | [_], _, k, a, ha, hlt, _, _ => by simp at hlt
  | x :: y :: rest, i0, k, a, ha, hlt, hinv, hpre => by
    match k with
    | 0 =>
      have hax : x = a := by simpa using ha
      subst hax
      unfold sanityFrom
      rw [if_pos (by omega)]
      norm_num
    | k + 1 =>
      have h0 := hpre 0 x y (by omega) (by simp) (by simp)
      have hrec := sanityFrom_inverted_eq (y :: rest) (i0 + 1) k a
        (by simpa using ha) (by simpa using hlt) hinv
        (fun j c d hj hc hd =>
          hpre (j + 1) c d (by omega) (by simpa using hc) (by simpa using hd))
      unfold sanityFrom
      rw [if_neg (by omega), if_neg (by omega)]
      rw [hrec]
      congr 2
      omega

theorem sanity_none_adjacent {rows : List StationRow}
    (h : csv_sanity_check rows = none) :
    ∀ k a b, rows[k]? = some a → rows[k + 1]? = some b →
      a.low ≤ a.upp ∧ a.upp < b.low :=
  sanityFrom_none_adjacent rows 0 h

theorem sanity_chain {rows : List StationRow}
    (h : csv_sanity_check rows = none) :
    ∀ (d i : Nat) (a b : StationRow), rows[i]? = some a →
      rows[i + d + 1]? = some b → a.upp < b.low := by
  intro d
  induction d with
  | zero =>
    intro i a b ha hb
    exact (sanity_none_adjacent h i a b ha hb).2
  | succ d ih =>
    intro i a b ha hb
    have hblt : i + d + 1 + 1 < rows.length := by
      have := (List.getElem?_eq_some.mp hb).1
      omega
    obtain ⟨c, hc⟩ : ∃ c, rows[i + d + 1]? = some c := by
      rw [List.getElem?_eq_getElem (show i + d + 1 < rows.length by omega)]
      exact ⟨_, rfl⟩
    have h1 : a.upp < c.low := ih i a c ha hc
    have h2 := sanity_none_adjacent h (i + d + 1) c b hc (by
      have : i + d + 1 + 1 = i + (d + 1) + 1 := by omega
      rw [this]
      exact hb)
    omega

theorem sanity_lt_of_lt {rows : List StationRow}
    (h : csv_sanity_check rows = none) {i j : Nat} {a b : StationRow}
    (hij : i < j) (ha : rows[i]? = some a) (hb : rows[j]? = some b) :
    a.upp < b.low := by
  have hj : j = i + (j - i - 1) + 1 := by omega
  rw [hj] at hb
  exact sanity_chain h (j - i - 1) i a b ha hb

theorem sanity_unique {rows : List StationRow}
    (h : csv_sanity_check rows = none) {q : Int} {k : Nat} {a : StationRow}
    (ha : rows[k]? = some a) (hcov : covers a q) :
    ∀ j b, rows[j]? = some b → j ≠ k → ¬ covers b q := by
  intro j b hb hjk hcovb
  rcases Nat.lt_or_ge j k with hlt | hge
  · have := sanity_lt_of_lt h hlt hb ha
    rcases hcov with ⟨h1, _⟩
    rcases hcovb with ⟨_, h4⟩
    omega
  · have hlt : k < j := by omega
    have := sanity_lt_of_lt h hlt ha hb
    rcases hcov with ⟨_, h2⟩
    rcases hcovb with ⟨h3, _⟩
    omega

/-! ### The built lookup table -/

theorem posCount_eq : posCount = 1021 := by decide

theorem populate_length {sl : List StationRow} {arr : List Int}
    (h : populate_postostation sl = some arr) : arr.length = posCount := by
  unfold populate_postostation at h
  rw [populateAux_length _ _ _ _ h]
  simp

theorem populate_cells {sl : List StationRow} {arr : List Int}
    (h : populate_postostation sl = some arr) :
    ∀ c ∈ arr, c = -1 ∨ (0 ≤ c ∧ c + 1 < (sl.length : Int)) := by
  intro c hc
  unfold populate_postostation at h
  rcases populateAux_mem _ _ _ _ h c hc with h1 | ⟨k, hk, hc'⟩
  · exact Or.inl (List.eq_of_mem_replicate h1)
  · right
    rw [List.length_dropLast] at hk
    refine ⟨by rw [hc']; positivity, ?_⟩
    rw [hc']
    push_cast
    omega

theorem populate_spec (sl : List StationRow)
    (hok : ∀ r ∈ sl.dropLast,
      r.upp < r.low ∨ (MIN_POS ≤ r.low ∧ r.upp ≤ MAX_POS)) :
    ∃ arr, populate_postostation sl = some arr ∧ arr.length = posCount ∧
      (∀ q : Nat, q < posCount → (∀ r ∈ sl.dropLast, ¬ covers r (q : Int)) →
        arr[q]? = some (-1)) ∧
      (∀ (q : Nat) (k : Nat) (a : StationRow),
        sl.dropLast[k]? = some a → covers a (q : Int) →
        (∀ j b, sl.dropLast[j]? = some b → j ≠ k → ¬ covers b (q : Int)) →
        arr[q]? = some (k : Int)) := by
  obtain ⟨arr, harr, hlen, hunch, hcov⟩ :=
    populateAux_spec sl.dropLast 0 (List.replicate posCount (-1))
      (fun r hr => by
        rcases hok r hr with h | ⟨h1, h2⟩
        · exact Or.inl h
        · right
          rw [MIN_POS] at h1
          rw [MAX_POS] at h2
          refine ⟨h1, ?_⟩
          rw [List.length_replicate, posCount_eq]
          omega)
  refine ⟨arr, harr, by simpa using hlen, fun q hq hnone => ?_, fun q k a hk hcova huniq => ?_⟩
  · rw [hunch q hnone, List.getElem?_replicate, if_pos hq]
  · have := hcov q k a hk hcova huniq
    simpa using this

/-! ### Loading the table -/

theorem read_csv_ok {rows table : List StationRow}
    (h : read_csv rows = Except.ok table) :
    csv_sanity_check rows = none ∧ table = rows ++ [fallbackRow] := by
  unfold read_csv at h
  cases hs : csv_sanity_check rows with
  | some e => rw [hs] at h; cases h
  | none => rw [hs] at h; cases h; exact ⟨rfl, rfl⟩

theorem read_csv_error_of_violation {rows : List StationRow}
    (h : csv_sanity_check rows ≠ none) :
    ∃ e, read_csv rows = Except.error e := by
  unfold read_csv
  cases hs : csv_sanity_check rows with
  | some e => exact ⟨e, rfl⟩
  | none => exact absurd hs h

/-! ### Reading the table and the lookup with Python indexing -/

theorem pyGet_natCast {α : Type} (l : List α) (k : Nat) :
    pyGet l (k : Int) = l[k]? := by
  rw [pyGet_nonneg _ _ (by positivity)]
  norm_num

theorem pyGet_last {α : Type} (l1 : List α) (b : α) :
    pyGet (l1 ++ [b]) (-1) = some b := by
  unfold pyGet
  rw [if_neg (by omega), if_pos (by simp)]
  have h1 : ((-1 : Int) + ((l1 ++ [b]).length : Int)).toNat = l1.length := by
    simp
  rw [h1, List.getElem?_concat_length]

theorem MIN_POS_eq : MIN_POS = 0 := rfl

theorem MAX_POS_eq : MAX_POS = 1020 := rfl

theorem pyGet_neg_one {α : Type} (l : List α) (hl : 1 ≤ l.length) :
    pyGet l (-1) = l[l.length - 1]? := by
  unfold pyGet
  rw [if_neg (by omega), if_pos (by omega)]
  congr 1
  omega

theorem pyIndex_inj {len : Nat} {c1 c2 : Int}
    (h1 : c1 = -1 ∨ (0 ≤ c1 ∧ c1 + 1 < (len : Int)))
    (h2 : c2 = -1 ∨ (0 ≤ c2 ∧ c2 + 1 < (len : Int))) :
    pyIndex len c1 = pyIndex len c2 ↔ c1 = c2 := by
  unfold pyIndex
  rcases h1 with h1 | ⟨h1a, h1b⟩ <;> rcases h2 with h2 | ⟨h2a, h2b⟩ <;>
    subst_eqs <;> split <;> (try split) <;> omega

/-- The full behaviour of one encoder callback on a valid lookup table:
the committed position is `pos + effectiveWay pos way`, and the trace is a
stop/start pair followed by the persist exactly when the resolved station
index changes, else only the persist. -/
theorem callback_eq {sl : List StationRow} {p2s : List Int} {pos way : Int}
    (hlen : p2s.length = posCount)
    (hval : ∀ c ∈ p2s, c = -1 ∨ (0 ≤ c ∧ c + 1 < (sl.length : Int)))
    (hsl : 1 ≤ sl.length)
    (hlo : MIN_POS ≤ pos) (hhi : pos ≤ MAX_POS)
    (hway : way = -1 ∨ way = 0 ∨ way = 1) :
    ∃ st, resolve sl p2s (pos + effectiveWay pos way) = some st ∧
      callback_rotary_encoder sl p2s pos way = some (pos + effectiveWay pos way,
        if resolveIdx sl p2s pos ≠ resolveIdx sl p2s (pos + effectiveWay pos way)
        then [Event.stop, Event.start st.url, Event.persist (pos + effectiveWay pos way)]
        else [Event.persist (pos + effectiveWay pos way)]) := by
  rw [MIN_POS_eq] at hlo
  rw [MAX_POS_eq] at hhi
  have hrange : 0 ≤ pos + effectiveWay pos way ∧ pos + effectiveWay pos way ≤ 1020 := by
    unfold effectiveWay
    rw [MIN_POS_eq, MAX_POS_eq]
    split <;> omega
  set pos' := pos + effectiveWay pos way with hpos'
  have hlt1 : pos.toNat < p2s.length := by rw [hlen, posCount_eq]; omega
  have hlt2 : pos'.toNat < p2s.length := by rw [hlen, posCount_eq]; omega
  obtain ⟨c1, hcel1⟩ : ∃ c, p2s[pos.toNat]? = some c := by
    rw [List.getElem?_eq_getElem hlt1]
    exact ⟨_, rfl⟩
  obtain ⟨c2, hcel2⟩ : ∃ c, p2s[pos'.toNat]? = some c := by
    rw [List.getElem?_eq_getElem hlt2]
    exact ⟨_, rfl⟩
  have hg1 : pyGet p2s pos = some c1 := by
    rw [pyGet_nonneg _ _ (by omega)]
    exact hcel1
  have hg2 : pyGet p2s pos' = some c2 := by
    rw [pyGet_nonneg _ _ (by omega)]
    exact hcel2
  have hv1 := hval c1 (List.getElem?_mem hcel1)
  have hv2 := hval c2 (List.getElem?_mem hcel2)
  have hst : ∃ st, pyGet sl c2 = some st := by
    rcases hv2 with h | ⟨h2a, h2b⟩
    · rw [h, pyGet_neg_one sl hsl]
      exact ⟨_, List.getElem?_eq_getElem (by omega)⟩
    · rw [pyGet_nonneg _ _ h2a]
      exact ⟨_, List.getElem?_eq_getElem (by omega)⟩
  obtain ⟨st, hst⟩ := hst
  have hres : resolve sl p2s pos' = some st := by
    unfold resolve
    rw [hg2]
    exact hst
  have hmap1 : resolveIdx sl p2s pos = some (pyIndex sl.length c1) := by
    unfold resolveIdx
    rw [hg1]
    rfl
  have hmap2 : resolveIdx sl p2s pos' = some (pyIndex sl.length c2) := by
    unfold resolveIdx
    rw [hg2]
    rfl
  have hidx : (resolveIdx sl p2s pos ≠ resolveIdx sl p2s pos') ↔ c1 ≠ c2 := by
    rw [hmap1, hmap2]
    simp only [ne_eq, Option.some.injEq]
    exact not_congr (pyIndex_inj hv1 hv2)
  refine ⟨st, hres, ?_⟩
  simp only [callback_rotary_encoder]
  rw [← hpos', hg1, hg2]
  simp only [Option.some_bind]
  by_cases hcc : c1 = c2
  · rw [if_neg (not_not_intro hcc),
      if_neg (not_not_intro (by rw [hmap1, hmap2, hcc]))]
  · rw [if_pos hcc, hst, if_pos (hidx.mpr hcc)]
    rfl

theorem callback_shape {sl : List StationRow} {p2s : List Int}
    {pos way pos' : Int} {tr : List Event}
    (h : callback_rotary_encoder sl p2s pos way = some (pos', tr)) :
    pos' = pos + effectiveWay pos way ∧
      (tr = [Event.persist pos'] ∨
        ∃ url, tr = [Event.stop, Event.start url, Event.persist pos']) := by
  simp only [callback_rotary_encoder] at h
  cases hg1 : pyGet p2s pos with
  | none => rw [hg1] at h; cases h
  | some c1 =>
    rw [hg1] at h
    simp only [Option.some_bind] at h
    cases hg2 : pyGet p2s (pos + effectiveWay pos way) with
    | none => rw [hg2] at h; cases h
    | some c2 =>
      rw [hg2] at h
      simp only [Option.some_bind] at h
      split at h
      · cases hg3 : pyGet sl c2 with
        | none => rw [hg3] at h; cases h
        | some st =>
          rw [hg3] at h
          simp only [Option.map_some', Option.some.injEq, Prod.mk.injEq] at h
          obtain ⟨h1, h2⟩ := h
          subst h1
          refine ⟨rfl, Or.inr ⟨st.url, ?_⟩⟩
          rw [← h2]
          rfl
      · simp only [Option.some.injEq, Prod.mk.injEq] at h
        obtain ⟨h1, h2⟩ := h
        subst h1
        exact ⟨rfl, Or.inl h2.symm⟩

theorem effectiveWay_bounds {pos way : Int} (hlo : MIN_POS ≤ pos)
    (hhi : pos ≤ MAX_POS) (hway : way = -1 ∨ way = 0 ∨ way = 1) :
    MIN_POS ≤ pos + effectiveWay pos way ∧ pos + effectiveWay pos way ≤ MAX_POS := by
  rw [MIN_POS_eq] at hlo ⊢
  rw [MAX_POS_eq] at hhi ⊢
  unfold effectiveWay
  rw [MIN_POS_eq, MAX_POS_eq]
  split <;> omega

theorem callback_clamped {sl : List StationRow} {p2s : List Int} {pos way : Int}
    (hlen : p2s.length = posCount) (hlo : MIN_POS ≤ pos) (hhi : pos ≤ MAX_POS)
    (heff : effectiveWay pos way = 0) :
    callback_rotary_encoder sl p2s pos way = some (pos, [Event.persist pos]) := by
  rw [MIN_POS_eq] at hlo
  rw [MAX_POS_eq] at hhi
  have hlt : pos.toNat < p2s.length := by
    rw [hlen, posCount_eq]
    omega
  obtain ⟨c, hcel⟩ : ∃ c, p2s[pos.toNat]? = some c := by
    rw [List.getElem?_eq_getElem hlt]
    exact ⟨_, rfl⟩
  have hg : pyGet p2s pos = some c := by
    rw [pyGet_nonneg _ _ (by omega)]
    exact hcel
  simp only [callback_rotary_encoder, heff, add_zero]
  rw [hg]
  simp only [Option.some_bind]
  rw [if_neg (not_not_intro rfl)]

theorem runSteps_clamped {sl : List StationRow} {p2s : List Int} {pos way : Int}
    (hlen : p2s.length = posCount) (hlo : MIN_POS ≤ pos) (hhi : pos ≤ MAX_POS)
    (heff : effectiveWay pos way = 0) :
    ∀ n : Nat, runSteps sl p2s pos (List.replicate n way) =
      some (pos, List.replicate n (Event.persist pos))
  | 0 => rfl
  | n + 1 => by
    simp only [List.replicate_succ, runSteps]
    rw [callback_clamped hlen hlo hhi heff]
    simp only [Option.some_bind]
    rw [runSteps_clamped hlen hlo hhi heff n]
    rfl

/-! ### Round trip of the persisted position -/

theorem toNat_char_ofNat_digit {d : Nat} (hd : d < 10) :
    (Char.ofNat (48 + d)).toNat = 48 + d := by
  interval_cases d <;> decide

theorem isDecimalDigit_char_ofNat {d : Nat} (hd : d < 10) :
    isDecimalDigit (Char.ofNat (48 + d)) = true := by
  interval_cases d <;> decide

theorem foldl_map_digitChars :
    ∀ (ds : List Nat) (a : Nat), (∀ d ∈ ds, d < 10) →
      List.foldl (fun n c => n * 10 + (c.toNat - 48)) a
        (ds.map (fun d => Char.ofNat (48 + d))) =
      List.foldl (fun n d => n * 10 + d) a ds
  | [], a, _ => rfl
  | d :: ds, a, h => by
    simp only [List.map_cons, List.foldl_cons]
    rw [toNat_char_ofNat_digit (h d (by simp))]
    rw [foldl_map_digitChars ds _ (fun e he => h e (by simp [he]))]
    congr 1
    omega

theorem foldr_eq_ofDigits :
    ∀ l : List Nat,
      List.foldr (fun x y => y * 10 + x) 0 l = Nat.ofDigits 10 l
  | [] => by simp [Nat.ofDigits]
  | d :: l => by
    rw [List.foldr_cons, foldr_eq_ofDigits l, Nat.ofDigits_cons]
    ring

theorem foldl_reverse_digits (n : Nat) :
    List.foldl (fun m d => m * 10 + d) 0 (Nat.digits 10 n).reverse = n := by
  rw [List.foldl_reverse, foldr_eq_ofDigits, Nat.ofDigits_digits]

theorem parseDigits_decimalChars (n : Nat) :
    parseDigits (decimalChars n) = some n := by
  by_cases h0 : n = 0
  · subst h0
    decide
  · have hne : Nat.digits 10 n ≠ [] := Nat.digits_ne_nil_iff_ne_zero.mpr h0
    have hlt : ∀ d ∈ (Nat.digits 10 n).reverse, d < 10 := fun d hd =>
      Nat.digits_lt_base (by norm_num) (List.mem_reverse.mp hd)
    unfold decimalChars
    rw [if_neg h0]
    unfold parseDigits
    rw [if_neg (by
      simp only [List.isEmpty_eq_true, List.map_eq_nil_iff, List.reverse_eq_nil_iff]
      exact hne)]
    rw [if_pos (by
      rw [List.all_eq_true]
      intro c hc
      obtain ⟨d, hd, rfl⟩ := List.mem_map.mp hc
      exact isDecimalDigit_char_ofNat (hlt d hd))]
    rw [foldl_map_digitChars _ _ hlt, foldl_reverse_digits]

theorem decimalChars_ne_nil (n : Nat) : decimalChars n ≠ [] := by
  unfold decimalChars
  split
  · simp
  · simp only [ne_eq, List.map_eq_nil_iff, List.reverse_eq_nil_iff]
    exact Nat.digits_ne_nil_iff_ne_zero.mpr (by assumption)

theorem decimalChars_all_digits (n : Nat) :
    (decimalChars n).all isDecimalDigit = true := by
  unfold decimalChars
  split
  · decide
  · rw [List.all_eq_true]
    intro c hc
    obtain ⟨d, hd, rfl⟩ := List.mem_map.mp hc
    exact isDecimalDigit_char_ofNat
      (Nat.digits_lt_base (by norm_num) (List.mem_reverse.mp hd))

theorem parseIntLit_of_digits {s : List Char}
    (hall : s.all isDecimalDigit = true) (hne : s ≠ []) :
    parseIntLit s = (parseDigits s).map (fun n : Nat => (n : Int)) := by
  cases s with
  | nil => exact absurd rfl hne
  | cons c rest =>
    have hc : isDecimalDigit c = true := by
      rw [List.all_eq_true] at hall
      exact hall c (by simp)
    have hcm : ¬(c = '-') := by
      intro h
      subst h
      simp [isDecimalDigit] at hc
    simp only [parseIntLit]
    rw [if_neg hcm]

/-! ### The claims -/

/-- C3: `load` rejects any table whose adjacent real records overlap or touch
(`record[i].upperBound >= record[i+1].lowerBound`); every accepted table
satisfies the strict inequality for every adjacent pair; when the pair is the
first violation the error is the overlap error identifying rows `i` and
`i + 1`. -/
theorem C3_overlap_rejected (rows : List StationRow) :
    (∀ table, read_csv rows = Except.ok table →
      ∀ k a b, rows[k]? = some a → rows[k + 1]? = some b → a.upp < b.low) ∧
    (∀ k a b, rows[k]? = some a → rows[k + 1]? = some b → b.low ≤ a.upp →
      ∃ e, read_csv rows = Except.error e) ∧
    (∀ k a b, rows[k]? = some a → rows[k + 1]? = some b →
      a.low ≤ a.upp → b.low ≤ a.upp →
      (∀ j c d, j < k → rows[j]? = some c → rows[j + 1]? = some d →
        c.low ≤ c.upp ∧ c.upp < d.low) →
      read_csv rows = Except.error (CsvError.overlap k (k + 1))) := by
  refine ⟨fun table htab k a b ha hb => ?_, fun k a b ha hb hov => ?_,
    fun k a b ha hb hwf hov hpre => ?_⟩
  · exact (sanity_none_adjacent (read_csv_ok htab).1 k a b ha hb).2
  · refine read_csv_error_of_violation (fun hnone => ?_)
    have := (sanity_none_adjacent hnone k a b ha hb).2
    omega
  · have := sanityFrom_overlap_eq rows 0 k a b ha hb hwf hov hpre
    unfold read_csv csv_sanity_check
    rw [this]
    norm_num

/-- C4 counterexample: the table `[(5, 3, "A")]` has a (last) real row with
`lowerBound > upperBound`, yet `load` accepts it, because the sanity loop
`range(0, len(stations) - 1)` never checks the last real row. -/
theorem C4_counterexample :
    read_csv [(⟨5, 3, "A"⟩ : StationRow)] =
      Except.ok [⟨5, 3, "A"⟩, fallbackRow] ∧
    ¬((⟨5, 3, "A"⟩ : StationRow).low ≤ (⟨5, 3, "A"⟩ : StationRow).upp) :=
  ⟨rfl, by decide⟩

/-- C4 (amended): `load` fails with the inverted-boundary error whenever a
real row OTHER THAN THE LAST has `lowerBound > upperBound` (the last real
row escapes the check); accordingly every accepted table satisfies
`lowerBound <= upperBound` for every real row that has a successor. -/
theorem C4_inverted_amended (rows : List StationRow) :
    (∀ table, read_csv rows = Except.ok table →
      ∀ k a b, rows[k]? = some a → rows[k + 1]? = some b → a.low ≤ a.upp) ∧
    (∀ k a b, rows[k]? = some a → rows[k + 1]? = some b → a.upp < a.low →
      ∃ e, read_csv rows = Except.error e) ∧
    (∀ k a, rows[k]? = some a → k + 1 < rows.length → a.upp < a.low →
      (∀ j c d, j < k → rows[j]? = some c → rows[j + 1]? = some d →
        c.low ≤ c.upp ∧ c.upp < d.low) →
      read_csv rows = Except.error (CsvError.inverted k)) := by
  refine ⟨fun table htab k a b ha hb => ?_, fun k a b ha hb hinv => ?_,
    fun k a ha hlt hinv hpre => ?_⟩
  · exact (sanity_none_adjacent (read_csv_ok htab).1 k a b ha hb).1
  · refine read_csv_error_of_violation (fun hnone => ?_)
    have := (sanity_none_adjacent hnone k a b ha hb).1
    omega
  · have := sanityFrom_inverted_eq rows 0 k a ha hlt hinv hpre
    unfold read_csv csv_sanity_check
    rw [this]
    norm_num

set_option maxRecDepth 10000 in
/-- C5 counterexample: the single row `(1020, 1021, "A")` passes validation
(nothing is checked for a single row), but building the lookup fails with an
IndexError at position 1021: `populate_postostation` does not clamp bounds to
`[MIN_POS, MAX_POS]` and is not total on accepted tables. -/
theorem C5_counterexample :
    csv_sanity_check rowsOver = none ∧
    read_csv rowsOver = Except.ok (rowsOver ++ [fallbackRow]) ∧
    populate_postostation (rowsOver ++ [fallbackRow]) = none :=
  ⟨rfl, rfl, rfl⟩

/-- C5 (amended): `populate_postostation` performs no clamping; it writes one
cell per position of each real range under Python index semantics, so it can
fail beyond `MAX_POS`. When every real range is empty or lies within
`[MIN_POS, MAX_POS]`, the build succeeds, allocates exactly
`MAX_POS - MIN_POS + 1` cells, and leaves every cell not covered by a real
range at the sentinel `-1`. -/
theorem C5_build_amended (sl : List StationRow)
    (hok : ∀ r ∈ sl.dropLast,
      r.upp < r.low ∨ (MIN_POS ≤ r.low ∧ r.upp ≤ MAX_POS)) :
    ∃ arr, populate_postostation sl = some arr ∧ arr.length = posCount ∧
      ∀ q : Nat, q < posCount → (∀ r ∈ sl.dropLast, ¬ covers r (q : Int)) →
        arr[q]? = some (-1) := by
  obtain ⟨arr, h1, h2, h3, _⟩ := populate_spec sl hok
  exact ⟨arr, h1, h2, h3⟩

/-- C5 witness. -/
theorem C5_build_amended_witness :
    ∃ arr, populate_postostation tableW = some arr ∧ arr.length = posCount ∧
      ∀ q : Nat, q < posCount → (∀ r ∈ tableW.dropLast, ¬ covers r (q : Int)) →
        arr[q]? = some (-1) :=
  C5_build_amended tableW (by decide)

/-- C6: for any position in `[MIN_POS, MAX_POS]` and any step in
`{-1, 0, +1}`, the position committed by the encoder callback is again in
`[MIN_POS, MAX_POS]`: every transition preserves the bound invariant. -/
theorem C6_position_bounded (sl : List StationRow) (p2s : List Int)
    (pos way pos' : Int) (tr : List Event)
    (hlo : MIN_POS ≤ pos) (hhi : pos ≤ MAX_POS)
    (hway : way = -1 ∨ way = 0 ∨ way = 1)
    (h : callback_rotary_encoder sl p2s pos way = some (pos', tr)) :
    MIN_POS ≤ pos' ∧ pos' ≤ MAX_POS := by
  obtain ⟨h1, _⟩ := callback_shape h
  rw [h1]
  exact effectiveWay_bounds hlo hhi hway

set_option maxRecDepth 10000 in
/-- C6 witness. -/
theorem C6_position_bounded_witness :
    MIN_POS ≤ (1 : Int) ∧ (1 : Int) ≤ MAX_POS :=
  C6_position_bounded tableW p2sW 0 1 1
    [Event.stop, Event.start NOISE_FILE, Event.persist 1]
    (by decide) (by decide) (by decide) rfl

/-- C7: hard clamp at the bounds: from `MAX_POS`, any number of `+1` steps
leaves the position at `MAX_POS` and emits only persists (no playback
transition); symmetrically from `MIN_POS` with `-1` steps. -/
theorem C7_clamp_law (sl : List StationRow) (p2s : List Int) (n : Nat)
    (hlen : p2s.length = posCount) :
    runSteps sl p2s MAX_POS (List.replicate n 1) =
      some (MAX_POS, List.replicate n (Event.persist MAX_POS)) ∧
    runSteps sl p2s MIN_POS (List.replicate n (-1)) =
      some (MIN_POS, List.replicate n (Event.persist MIN_POS)) := by
  constructor
  · refine runSteps_clamped hlen (by decide) le_rfl ?_ n
    unfold effectiveWay
    rw [if_pos (Or.inl ⟨le_rfl, rfl⟩)]
  · refine runSteps_clamped hlen le_rfl (by decide) ?_ n
    unfold effectiveWay
    rw [if_pos (Or.inr ⟨le_rfl, rfl⟩)]

set_option maxRecDepth 10000 in
/-- C7 witness. -/
theorem C7_clamp_law_witness :
    runSteps tableW p2sW MAX_POS (List.replicate 3 1) =
      some (MAX_POS, List.replicate 3 (Event.persist MAX_POS)) ∧
    runSteps tableW p2sW MIN_POS (List.replicate 3 (-1)) =
      some (MIN_POS, List.replicate 3 (Event.persist MIN_POS)) :=
  C7_clamp_law tableW p2sW 3 rfl

/-- C8: every successful encoder callback, moved or not, ends by persisting
the committed position: the last event of its trace is the persist of the
new position. -/
theorem C8_always_persists (sl : List StationRow) (p2s : List Int)
    (pos way pos' : Int) (tr : List Event)
    (h : callback_rotary_encoder sl p2s pos way = some (pos', tr)) :
    tr.getLast? = some (Event.persist pos') := by
  obtain ⟨_, h2 | ⟨url, h2⟩⟩ := callback_shape h <;> rw [h2] <;> rfl

set_option maxRecDepth 10000 in
/-- C8 witness. -/
theorem C8_always_persists_witness :
    ([Event.stop, Event.start NOISE_FILE, Event.persist 1] : List Event).getLast?
      = some (Event.persist 1) :=
  C8_always_persists tableW p2sW 0 1 1 _ rfl

/-- C1: one encoder step from a position in `[MIN_POS, MAX_POS]` with a delta
in `{-1, 0, +1}` commits `pos + effectiveWay pos way` and calls the playback
sink if and only if the resolved station index changes; when it does, the
trace is exactly one stop, then one start of the stream url of the station
resolved at the new position, then the persist; otherwise the silent commit
emits only the persist. -/
theorem C1_encoder_step (sl : List StationRow) (p2s : List Int) (pos way : Int)
    (hpop : populate_postostation sl = some p2s) (hsl : 1 ≤ sl.length)
    (hlo : MIN_POS ≤ pos) (hhi : pos ≤ MAX_POS)
    (hway : way = -1 ∨ way = 0 ∨ way = 1) :
    ∃ st, resolve sl p2s (pos + effectiveWay pos way) = some st ∧
      callback_rotary_encoder sl p2s pos way = some (pos + effectiveWay pos way,
        if resolveIdx sl p2s pos ≠ resolveIdx sl p2s (pos + effectiveWay pos way)
        then [Event.stop, Event.start st.url,
          Event.persist (pos + effectiveWay pos way)]
        else [Event.persist (pos + effectiveWay pos way)]) :=
  callback_eq (populate_length hpop) (populate_cells hpop) hsl hlo hhi hway

set_option maxRecDepth 10000 in
/-- C1 witness. -/
theorem C1_encoder_step_witness :
    ∃ st, resolve tableW p2sW (0 + effectiveWay 0 1) = some st ∧
      callback_rotary_encoder tableW p2sW 0 1 = some (0 + effectiveWay 0 1,
        if resolveIdx tableW p2sW 0 ≠ resolveIdx tableW p2sW (0 + effectiveWay 0 1)
        then [Event.stop, Event.start st.url, Event.persist (0 + effectiveWay 0 1)]
        else [Event.persist (0 + effectiveWay 0 1)]) :=
  C1_encoder_step tableW p2sW 0 1 rfl (by decide) (by decide) (by decide)
    (by decide)

set_option maxRecDepth 10000 in
/-- C2 counterexample: the table `[(-5, -1, "A")]` is accepted by `load` and
its build succeeds, but its negative positions are written through Python
negative indexing into the top cells, so position 1016 — covered by no real
station — resolves to station A instead of the fallback/noise station. -/
theorem C2_counterexample :
    read_csv rowsNeg = Except.ok tableNeg ∧
    populate_postostation tableNeg = some p2sNeg ∧
    (∀ r ∈ rowsNeg, ¬ covers r (1016 : Int)) ∧
    resolve tableNeg p2sNeg 1016 = some ⟨-5, -1, "A"⟩ ∧
    (⟨-5, -1, "A"⟩ : StationRow) ≠ fallbackRow := by
  refine ⟨rfl, rfl, by decide, rfl, by decide⟩

/-- C2 (amended): after a successful `load` of a table all of whose real
ranges are empty or lie within `[MIN_POS, MAX_POS]`, the build succeeds and
resolving any position in `[MIN_POS, MAX_POS]` never fails: it yields the
real station whose range contains the position when one exists, and the
fallback/noise station for every uncovered position. -/
theorem C2_resolve_amended (rows table : List StationRow)
    (hread : read_csv rows = Except.ok table)
    (hok : ∀ r ∈ rows, r.upp < r.low ∨ (MIN_POS ≤ r.low ∧ r.upp ≤ MAX_POS)) :
    ∃ p2s, populate_postostation table = some p2s ∧
      ∀ p : Int, MIN_POS ≤ p → p ≤ MAX_POS →
        ((∀ r ∈ rows, ¬ covers r p) → resolve table p2s p = some fallbackRow) ∧
        (∀ (k : Nat) (a : StationRow), rows[k]? = some a → covers a p →
          resolve table p2s p = some a) := by
  obtain ⟨hsan, htab⟩ := read_csv_ok hread
  subst htab
  have hdrop : (rows ++ [fallbackRow]).dropLast = rows := List.dropLast_concat
  obtain ⟨p2s, hpop, hlen, hunch, hcov⟩ :=
    populate_spec (rows ++ [fallbackRow]) (by rw [hdrop]; exact hok)
  refine ⟨p2s, hpop, fun p hplo hphi => ?_⟩
  rw [MIN_POS_eq] at hplo
  rw [MAX_POS_eq] at hphi
  have hpq : ((p.toNat : Nat) : Int) = p := Int.toNat_of_nonneg hplo
  have hqlt : p.toNat < posCount := by rw [posCount_eq]; omega
  have hgl : pyGet p2s p = p2s[p.toNat]? := by
    rw [pyGet_nonneg _ _ hplo]
  constructor
  · intro hnone
    have hcells : p2s[p.toNat]? = some (-1) := by
      refine hunch p.toNat hqlt ?_
      rw [hdrop]
      intro r hr
      rw [hpq]
      exact hnone r hr
    unfold resolve
    rw [hgl, hcells]
    simp only [Option.some_bind]
    exact pyGet_last rows fallbackRow
  · intro k a hk hcova
    have huniq := sanity_unique hsan hk hcova
    have hcells : p2s[p.toNat]? = some (k : Int) := by
      refine hcov p.toNat k a (by rw [hdrop]; exact hk) (by rw [hpq]; exact hcova) ?_
      rw [hdrop]
      intro j b hj hjk
      rw [hpq]
      exact huniq j b hj hjk
    have hklt : k < rows.length := (List.getElem?_eq_some.mp hk).1
    unfold resolve
    rw [hgl, hcells]
    simp only [Option.some_bind]
    rw [pyGet_natCast, List.getElem?_append_left hklt]
    exact hk

set_option maxRecDepth 10000 in
/-- C2 witness. -/
theorem C2_resolve_amended_witness :
    ∃ p2s, populate_postostation tableW = some p2s ∧
      ∀ p : Int, MIN_POS ≤ p → p ≤ MAX_POS →
        ((∀ r ∈ rowsW, ¬ covers r p) → resolve tableW p2s p = some fallbackRow) ∧
        (∀ (k : Nat) (a : StationRow), rowsW[k]? = some a → covers a p →
          resolve tableW p2s p = some a) :=
  C2_resolve_amended rowsW tableW rfl (by decide)

/-- C9: round trip of the position store: for any position in
`[MIN_POS, MAX_POS]`, writing the position file and importing
`start_position` back returns exactly the saved value (the file is wholly
rewritten from the single new value on each save). -/
theorem C9_roundtrip (x : Int) (hlo : MIN_POS ≤ x) (hhi : x ≤ MAX_POS) :
    load_start_position (write_position_files x) = some x := by
  rw [MIN_POS_eq] at hlo
  unfold write_position_files load_start_position
  rw [List.take_left, if_pos rfl, List.drop_left]
  have hx : str_of_int x = decimalChars x.toNat := by
    unfold str_of_int
    rw [if_neg (by omega)]
  rw [hx, parseIntLit_of_digits (decimalChars_all_digits _)
    (decimalChars_ne_nil _), parseDigits_decimalChars]
  simp only [Option.map_some']
  rw [Int.toNat_of_nonneg hlo]

/-- C9 witness. -/
theorem C9_roundtrip_witness :
    load_start_position (write_position_files 777) = some 777 :=
  C9_roundtrip 777 (by decide) (by decide)

/-- C10: the sentinel `-1` selects exactly the appended fallback entry:
`load` appends the noise row as the last element, and every cell produced by
the build indexes the station list safely — a nonnegative cell picks the
real station with that line number, and the sentinel `-1` picks the last
(fallback) entry, never out of range. -/
theorem C10_sentinel_fallback (rows table : List StationRow) (p2s : List Int)
    (hread : read_csv rows = Except.ok table)
    (hpop : populate_postostation table = some p2s) :
    table.getLast? = some fallbackRow ∧
    ∀ c ∈ p2s, ∃ st, pyGet table c = some st ∧
      ((c = -1 ∧ st = fallbackRow) ∨ (0 ≤ c ∧ rows[c.toNat]? = some st)) := by
  obtain ⟨hsan, htab⟩ := read_csv_ok hread
  subst htab
  refine ⟨List.getLast?_concat _, fun c hc => ?_⟩
  rcases populate_cells hpop c hc with h | ⟨h1, h2⟩
  · subst h
    exact ⟨fallbackRow, pyGet_last _ _, Or.inl ⟨rfl, rfl⟩⟩
  · rw [List.length_append, List.length_cons, List.length_nil] at h2
    have hlt : c.toNat < rows.length := by omega
    have hlt' : c.toNat < (rows ++ [fallbackRow]).length := by
      rw [List.length_append]
      omega
    obtain ⟨st, hstel⟩ : ∃ st, (rows ++ [fallbackRow])[c.toNat]? = some st := by
      rw [List.getElem?_eq_getElem hlt']
      exact ⟨_, rfl⟩
    refine ⟨st, ?_, Or.inr ⟨h1, ?_⟩⟩
    · rw [pyGet_nonneg _ _ h1]
      exact hstel
    · rw [← List.getElem?_append_left hlt]
      exact hstel

set_option maxRecDepth 10000 in
/-- C10 witness. -/
theorem C10_sentinel_fallback_witness :
    tableW.getLast? = some fallbackRow ∧
    ∀ c ∈ p2sW, ∃ st, pyGet tableW c = some st ∧
      ((c = -1 ∧ st = fallbackRow) ∨ (0 ≤ c ∧ rowsW[c.toNat]? = some st)) :=
  C10_sentinel_fallback rowsW tableW p2sW rfl rfl

end RetroRadio
